import Mathlib

/-!
Verification development for `Assets/AnalyzeLines.py`: a local-neighborhood
RANSAC extractor that decomposes a 3D point cloud into short line segments.

The embedding models points as triples of rationals (the Python code uses
floating-point numbers; we use exact rational arithmetic for the ideal
real-number semantics the specification describes).  Two external
collaborators of the code are injected as function parameters:

* `svd` models the composite `np.linalg.svd(M)[2][0]` (the dominant right
  singular vector `vv[0]` of a matrix, `numpy` being a third-party library
  outside this repository); the RANSAC code passes it the centered local
  points, row by row.
* `rng` models the stream of draws `np.random.randint(len(points))`, one per
  loop iteration; the code reduces the draw modulo the current pool size.

All strict-inequality threshold tests of the code compare a Euclidean norm
(a square root) against a rational bound; `ltNorm` performs exactly that
comparison using only rational arithmetic (`sqrt s < r ↔ 0 ≤ r ∧ s < r²`),
which theorem `AnalyzeLines.ltNorm_iff_sqrt` proves.
-/

namespace AnalyzeLines

/-- A 3D point with exact rational coordinates. -/
abbrev Pt : Type := ℚ × ℚ × ℚ

/-- A pool entry: a point tagged with its position in the original input. -/
abbrev IPt : Type := Nat × Pt

/-- A line segment: ordered pair of endpoints. -/
abbrev Seg : Type := Pt × Pt

/-- The zero point, used as an (unreachable) default for list indexing. -/
def pzero : Pt := (0, 0, 0)

/-- Componentwise addition of points/vectors. -/
def ptAdd (a b : Pt) : Pt := (a.1 + b.1, a.2.1 + b.2.1, a.2.2 + b.2.2)

/-- Componentwise subtraction of points/vectors (`p - q` in numpy). -/
def ptSub (a b : Pt) : Pt := (a.1 - b.1, a.2.1 - b.2.1, a.2.2 - b.2.2)

/-- Scalar multiple of a vector (`c * v` in numpy). -/
def smulP (c : ℚ) (a : Pt) : Pt := (c * a.1, c * a.2.1, c * a.2.2)

/-- Dot product (`np.dot`). -/
def dotP (a b : Pt) : ℚ := a.1 * b.1 + a.2.1 * b.2.1 + a.2.2 * b.2.2

/-- The 3D cross product (`np.cross`). -/
def crossP (a b : Pt) : Pt :=
  (a.2.1 * b.2.2 - a.2.2 * b.2.1,
   a.2.2 * b.1 - a.1 * b.2.2,
   a.1 * b.2.1 - a.2.1 * b.1)

/-- Squared Euclidean norm; `np.linalg.norm v` is its square root. -/
def normSq (a : Pt) : ℚ := a.1 ^ 2 + a.2.1 ^ 2 + a.2.2 ^ 2

/-- The comparison `np.linalg.norm v < r` expressed in rational arithmetic:
`sqrt (normSq v) < r` iff `0 ≤ r` and `normSq v < r ^ 2`
(see `ltNorm_iff_sqrt`). -/
def ltNorm (v : Pt) (r : ℚ) : Bool :=
  decide (0 ≤ r) && decide (normSq v < r ^ 2)

/-- Componentwise sum of a list of points (`np.sum(..., axis=0)`). -/
def sumPts (ps : List Pt) : Pt := ps.foldl ptAdd pzero

/-- Implements `np.mean(points, axis=0)`: the arithmetic mean of the points. -/
def centroid (ps : List Pt) : Pt := smulP (1 / (ps.length : ℚ)) (sumPts ps)

/-- Implements `points - mean`: the points centered at their centroid. -/
def centeredPts (ps : List Pt) : List Pt := ps.map (fun p => ptSub p (centroid ps))

/-- Implements `fit_line_segment(points)` from `AnalyzeLines.py`: the centroid of the
points together with the first right singular vector `vv[0]` of the centered
coordinate matrix, the SVD being supplied by the external `svd` collaborator. -/
def fit_line_segment (svd : List Pt → Pt) (ps : List Pt) : Pt × Pt :=
  (centroid ps, svd (centeredPts ps))

/-! ### The Local RANSAC Extractor, `run_local_ransac` -/

/-- Implements `idx = np.random.randint(len(points))`: the seed index for iteration `k`,
an arbitrary injected draw reduced into range. -/
def stepSeedIdx (rng : Nat → Nat) (k n : Nat) : Nat := rng k % n

/-- Implements `local_indices = np.where(dists < neighborhood_radius)[0]`: the (ascending)
pool positions whose point lies strictly within radius `r` of the seed. -/
def localIdxs (pool : List IPt) (seed : Pt) (r : ℚ) : List Nat :=
  (List.range pool.length).filter (fun i => ltNorm (ptSub (pool.getD i (0, pzero)).2 seed) r)

/-- Implements numpy fancy indexing `l[S]`: the entries of `l` at the positions listed in `S`. -/
def selectIdxs {α : Type} (l : List α) (S : List Nat) : List α :=
  S.filterMap l.get?

/-- Implements `np.delete(l, S, axis=0)`: the entries of `l` whose position is not in `S`. -/
def deleteIdxs {α : Type} (l : List α) (S : List Nat) : List α :=
  ((List.range l.length).filter (fun i => decide (i ∉ S))).filterMap l.get?

/-- Computes `inliers_idx` mapped back to pool positions
(`local_indices[inliers_idx]`): the positions of `lIdx` whose point lies at
orthogonal distance `‖(p - mean) × dir‖ < thr` from the fitted line. -/
def inlierIdxs (pool : List IPt) (lIdx : List Nat) (mean dir : Pt) (thr : ℚ) : List Nat :=
  lIdx.filter (fun i => ltNorm (crossP (ptSub (pool.getD i (0, pzero)).2 mean) dir) thr)

/-- Minimum of a list of rationals (`np.min`; the code only applies it to
nonempty lists). -/
def qmin : List ℚ → ℚ
  | [] => 0
  | a :: t => t.foldl min a

/-- Maximum of a list of rationals (`np.max`). -/
def qmax : List ℚ → ℚ
  | [] => 0
  | a :: t => t.foldl max a

/-- Implements `seed_point = points[idx]`: the seed point of iteration `k`. -/
def stepSeed (rng : Nat → Nat) (k : Nat) (pool : List IPt) : Pt :=
  (pool.getD (stepSeedIdx rng k pool.length) (0, pzero)).2

/-- Computes `local_indices` of iteration `k`: the pool positions within the
neighborhood radius of the seed. -/
def stepLocal (rng : Nat → Nat) (r : ℚ) (k : Nat) (pool : List IPt) : List Nat :=
  localIdxs pool (stepSeed rng k pool) r

/-- Computes `(mean, direction) = fit_line_segment(local_points)` of iteration `k`. -/
def stepFit (svd : List Pt → Pt) (rng : Nat → Nat) (r : ℚ) (k : Nat) (pool : List IPt) :
    Pt × Pt :=
  fit_line_segment svd ((selectIdxs pool (stepLocal rng r k pool)).map Prod.snd)

/-- Computes `local_indices[inliers_idx]` of iteration `k`: the pool positions of the
classified inliers. -/
def stepInlIdx (svd : List Pt → Pt) (rng : Nat → Nat) (r : ℚ) (thr : ℚ) (k : Nat)
    (pool : List IPt) : List Nat :=
  inlierIdxs pool (stepLocal rng r k pool)
    (stepFit svd rng r k pool).1 (stepFit svd rng r k pool).2 thr

/-- Computes `inlier_points` of iteration `k` (with their original input positions). -/
def stepInl (svd : List Pt → Pt) (rng : Nat → Nat) (r : ℚ) (thr : ℚ) (k : Nat)
    (pool : List IPt) : List IPt :=
  selectIdxs pool (stepInlIdx svd rng r thr k pool)

/-- Computes `projections = np.dot(inlier_points - mean, direction)` of iteration `k`. -/
def stepProjs (svd : List Pt → Pt) (rng : Nat → Nat) (r : ℚ) (thr : ℚ) (k : Nat)
    (pool : List IPt) : List ℚ :=
  (stepInl svd rng r thr k pool).map
    (fun q => dotP (ptSub q.2 (stepFit svd rng r k pool).1) (stepFit svd rng r k pool).2)

/-- The emitted segment of a successful iteration `k`:
`(mean + direction * min(projections), mean + direction * max(projections))`. -/
def stepSeg (svd : List Pt → Pt) (rng : Nat → Nat) (r : ℚ) (thr : ℚ) (k : Nat)
    (pool : List IPt) : Seg :=
  (ptAdd (stepFit svd rng r k pool).1
      (smulP (qmin (stepProjs svd rng r thr k pool)) (stepFit svd rng r k pool).2),
   ptAdd (stepFit svd rng r k pool).1
      (smulP (qmax (stepProjs svd rng r thr k pool)) (stepFit svd rng r k pool).2))

/-- One iteration of the `while` loop body of `run_local_ransac`, acting on
the current pool.  Returns the new pool, together with `some (segment,
inliers)` when the success branch fires and `none` on the reject-as-noise and
failure branches (which delete only the seed). -/
def ransacStep (svd : List Pt → Pt) (rng : Nat → Nat) (r : ℚ) (ms : Nat) (thr : ℚ)
    (k : Nat) (pool : List IPt) : List IPt × Option (Seg × List IPt) :=
  if (stepLocal rng r k pool).length < ms then
    (pool.eraseIdx (stepSeedIdx rng k pool.length), none)
  else if ms ≤ (stepInlIdx svd rng r thr k pool).length then
    (deleteIdxs pool (stepInlIdx svd rng r thr k pool),
      some (stepSeg svd rng r thr k pool, stepInl svd rng r thr k pool))
  else (pool.eraseIdx (stepSeedIdx rng k pool.length), none)

/-- The extractor's loop state: the remaining pool, the emitted segments in
discovery order, the inlier set consumed by each emitted segment (ghost data
recording what the success branch deleted), and `iter_count`. -/
structure RState where
  pool : List IPt
  lines : List Seg
  inls : List (List IPt)
  iter : Nat
deriving DecidableEq

/-- Advance the state by one loop iteration (`iter_count += 1`, then one
`ransacStep` on the pool). -/
def ransacIter (svd : List Pt → Pt) (rng : Nat → Nat) (r : ℚ) (ms : Nat) (thr : ℚ)
    (st : RState) : RState :=
  match (ransacStep svd rng r ms thr st.iter st.pool) with
  | (pool', none) => ⟨pool', st.lines, st.inls, st.iter + 1⟩
  | (pool', some sl) => ⟨pool', st.lines ++ [sl.1], st.inls ++ [sl.2], st.iter + 1⟩

/-- The `while len(points) > min_samples and iter_count < max_iterations`
loop; `fuel` is the number of loop entries the iteration cap still allows
(`max_iterations - iter_count`). -/
def ransacLoop (svd : List Pt → Pt) (rng : Nat → Nat) (r : ℚ) (ms : Nat) (thr : ℚ) :
    Nat → RState → RState
  | 0, st => st
  | fuel + 1, st =>
    if ms < st.pool.length then
      ransacLoop svd rng r ms thr fuel (ransacIter svd rng r ms thr st)
    else st

/-- The initial state: the pool is a copy of the whole input (tagged with
original positions), no segments, `iter_count = 0`. -/
def initState (data : List Pt) : RState := ⟨data.enum, [], [], 0⟩

/-- The constant `max_iterations = 5000` fixed inside `run_local_ransac`. -/
def max_iterations : Nat := 5000

/-- Runs `run_local_ransac` keeping its full final state (pool remainder and ghost
inlier sets included). -/
def run_full (svd : List Pt → Pt) (rng : Nat → Nat) (data : List Pt)
    (neighborhood_radius : ℚ) (min_samples : Nat) (threshold : ℚ) : RState :=
  ransacLoop svd rng neighborhood_radius min_samples threshold max_iterations (initState data)

/-- Implements `run_local_ransac(data, neighborhood_radius, min_samples, threshold)`:
the list of emitted segments. -/
def run_local_ransac (svd : List Pt → Pt) (rng : Nat → Nat) (data : List Pt)
    (neighborhood_radius : ℚ) (min_samples : Nat) (threshold : ℚ) : List Seg :=
  (run_full svd rng data neighborhood_radius min_samples threshold).lines

/-- Modelled from the spec: the `extract` contract of §4.2/§6 takes
`max_iterations` as a caller-supplied parameter (the code instead fixes it to
`5000` internally); this is the same loop with the cap exposed. -/
def extract_spec (svd : List Pt → Pt) (rng : Nat → Nat) (data : List Pt)
    (neighborhood_radius : ℚ) (min_samples : Nat) (threshold : ℚ)
    (max_iter : Nat) : List Seg :=
  (ransacLoop svd rng neighborhood_radius min_samples threshold max_iter (initState data)).lines

/-! ### Specification-side predicates and concrete fixtures -/

/-- The conservation invariant of a run on input `data`: the pool is a
sublist of the tagged input, every recorded inlier entry comes from the
tagged input, recorded inlier sets are pairwise disjoint (by original
position) and duplicate-free, consumed entries never reappear in the pool,
and there is exactly one recorded inlier set per emitted segment. -/
def PoolInv (data : List Pt) (st : RState) : Prop :=
  List.Sublist st.pool data.enum
    ∧ (∀ g ∈ st.inls, ∀ e ∈ g, e ∈ data.enum)
    ∧ (st.inls.map (List.map Prod.fst)).Pairwise List.Disjoint
    ∧ (∀ g ∈ st.inls, (g.map Prod.fst).Nodup)
    ∧ (∀ g ∈ st.inls, ∀ e ∈ g, e.1 ∉ st.pool.map Prod.fst)
    ∧ st.inls.length = st.lines.length

/-- No two distinct input positions lie within distance `r` of each other
(`ltNorm` is the code's strict neighborhood comparison). -/
def Separated (data : List Pt) (r : ℚ) : Prop :=
  ∀ i j, i < data.length → j < data.length → i ≠ j →
    ltNorm (ptSub (data.getD i pzero) (data.getD j pzero)) r = false

/-- The mathematical contract of `np.linalg.svd(M)[2][0]` (numpy is external
to this repository): a unit vector maximizing `‖M u‖²` over unit vectors,
i.e. the right singular vector of the row matrix `l` for its largest
singular value (determined up to sign by this property when the top singular
value is simple). -/
def IsDominantUnitDir (l : List Pt) (v : Pt) : Prop :=
  normSq v = 1 ∧ ∀ u : Pt, normSq u = 1 →
    (l.map (fun c => dotP c u ^ 2)).sum ≤ (l.map (fun c => dotP c v ^ 2)).sum

/-! ### Concrete fixtures

`svd0` is a concrete SVD collaborator: it returns `(1,0,0)`, which is the
dominant right singular vector (up to sign) for the x-axis-aligned inputs it
is applied to below.  `rng0` always draws index `0`. -/

def svd0 : List Pt → Pt := fun _ => (1, 0, 0)

def rng0 : Nat → Nat := fun _ => 0

/-- Two x-axis clusters of two points each, plus one far straggler. -/
def data5 : List Pt := [(0, 0, 0), (1, 0, 0), (10, 0, 0), (11, 0, 0), (50, 50, 50)]

/-- Four points pairwise far apart (scattered input, Scenario B). -/
def dataSep : List Pt := [(0, 0, 0), (10, 0, 0), (0, 10, 0), (0, 0, 10)]

/-- Two collinear points, used to exercise the Segment Fitter. -/
def ps2 : List Pt := [(0, 0, 0), (2, 0, 0)]

/-! ### Geometry lemmas -/

theorem normSq_nonneg (v : Pt) : 0 ≤ normSq v := by
  obtain ⟨a, b, c⟩ := v
  simp only [normSq]
  positivity

/-- The test `ltNorm v r` decides exactly the comparison the Python code makes:
`np.linalg.norm v < r`, i.e. `sqrt (normSq v) < r` over the reals. -/
theorem ltNorm_iff_sqrt (v : Pt) (r : ℚ) :
    ltNorm v r = true ↔ Real.sqrt ((normSq v : ℚ) : ℝ) < (r : ℝ) := by
  unfold ltNorm
  rcases le_or_lt r 0 with hr | hr
  · constructor
    · intro h
      simp only [Bool.and_eq_true, decide_eq_true_eq] at h
      obtain ⟨h0, hlt⟩ := h
      have hr0 : r = 0 := le_antisymm hr h0
      subst hr0
      nlinarith [normSq_nonneg v]
    · intro h
      exfalso
      have h1 : (0 : ℝ) ≤ Real.sqrt ((normSq v : ℚ) : ℝ) := Real.sqrt_nonneg _
      have h2 : (r : ℝ) ≤ 0 := by exact_mod_cast hr
      linarith
  · rw [Real.sqrt_lt' (by exact_mod_cast hr)]
    simp only [Bool.and_eq_true, decide_eq_true_eq]
    constructor
    · rintro ⟨-, h⟩
      exact_mod_cast h
    · intro h
      exact ⟨le_of_lt hr, by exact_mod_cast h⟩

/-- Lagrange's identity in 3D: `‖u × v‖² = ‖u‖²‖v‖² - (u·v)²`. -/
theorem cross_normSq (u v : Pt) :
    normSq (crossP u v) = normSq u * normSq v - dotP u v ^ 2 := by
  obtain ⟨a, b, c⟩ := u
  obtain ⟨d, e, f⟩ := v
  simp only [crossP, normSq, dotP]
  ring

/-- For a unit vector `v`, the total squared orthogonal distance of the points
of `l` to the line through the origin along `v` is the total squared norm
minus the total squared projection. -/
theorem sum_crossSq (l : List Pt) (v : Pt) (hv : normSq v = 1) :
    (l.map (fun c => normSq (crossP c v))).sum
      = (l.map normSq).sum - (l.map (fun c => dotP c v ^ 2)).sum := by
  induction l with
  | nil => simp
  | cons a t ih =>
    simp only [List.map_cons, List.sum_cons]
    rw [ih, cross_normSq, hv]
    ring

/-! ### `qmin` / `qmax` -/

theorem foldl_min_le_init : ∀ (t : List ℚ) (a : ℚ), t.foldl min a ≤ a := by
  intro t
  induction t with
  | nil => intro a; simp
  | cons b t ih =>
    intro a
    calc (b :: t).foldl min a = t.foldl min (min a b) := rfl
    _ ≤ min a b := ih _
    _ ≤ a := min_le_left _ _

theorem foldl_min_le_mem : ∀ (t : List ℚ) (a x : ℚ), x ∈ t → t.foldl min a ≤ x := by
  intro t
  induction t with
  | nil => intro a x hx; cases hx
  | cons b t ih =>
    intro a x hx
    rcases List.mem_cons.1 hx with rfl | hx
    · calc (x :: t).foldl min a = t.foldl min (min a x) := rfl
      _ ≤ min a x := foldl_min_le_init _ _
      _ ≤ x := min_le_right _ _
    · exact ih _ _ hx

theorem foldl_min_mem : ∀ (t : List ℚ) (a : ℚ), t.foldl min a = a ∨ t.foldl min a ∈ t := by
  intro t
  induction t with
  | nil => intro a; left; rfl
  | cons b t ih =>
    intro a
    rcases ih (min a b) with h | h
    · rcases le_total a b with hab | hab
      · left
        calc (b :: t).foldl min a = t.foldl min (min a b) := rfl
        _ = min a b := h
        _ = a := min_eq_left hab
      · right
        refine List.mem_cons.2 (Or.inl ?_)
        calc (b :: t).foldl min a = t.foldl min (min a b) := rfl
        _ = min a b := h
        _ = b := min_eq_right hab
    · right
      exact List.mem_cons.2 (Or.inr h)

theorem qmin_le {l : List ℚ} {x : ℚ} (hx : x ∈ l) : qmin l ≤ x := by
  cases l with
  | nil => cases hx
  | cons a t =>
    rcases List.mem_cons.1 hx with rfl | hx
    · exact foldl_min_le_init t x
    · exact foldl_min_le_mem t a x hx

theorem qmin_mem {l : List ℚ} (h : l ≠ []) : qmin l ∈ l := by
  cases l with
  | nil => exact absurd rfl h
  | cons a t =>
    rcases foldl_min_mem t a with h' | h'
    · exact List.mem_cons.2 (Or.inl h')
    · exact List.mem_cons.2 (Or.inr h')

theorem foldl_max_le_init : ∀ (t : List ℚ) (a : ℚ), a ≤ t.foldl max a := by
  intro t
  induction t with
  | nil => intro a; simp
  | cons b t ih =>
    intro a
    calc a ≤ max a b := le_max_left _ _
    _ ≤ t.foldl max (max a b) := ih _
    _ = (b :: t).foldl max a := rfl

theorem foldl_max_le_mem : ∀ (t : List ℚ) (a x : ℚ), x ∈ t → x ≤ t.foldl max a := by
  intro t
  induction t with
  | nil => intro a x hx; cases hx
  | cons b t ih =>
    intro a x hx
    rcases List.mem_cons.1 hx with rfl | hx
    · calc x ≤ max a x := le_max_right _ _
      _ ≤ t.foldl max (max a x) := foldl_max_le_init _ _
      _ = (x :: t).foldl max a := rfl
    · exact ih _ _ hx

theorem foldl_max_mem : ∀ (t : List ℚ) (a : ℚ), t.foldl max a = a ∨ t.foldl max a ∈ t := by
  intro t
  induction t with
  | nil => intro a; left; rfl
  | cons b t ih =>
    intro a
    rcases ih (max a b) with h | h
    · rcases le_total a b with hab | hab
      · right
        refine List.mem_cons.2 (Or.inl ?_)
        calc (b :: t).foldl max a = t.foldl max (max a b) := rfl
        _ = max a b := h
        _ = b := max_eq_right hab
      · left
        calc (b :: t).foldl max a = t.foldl max (max a b) := rfl
        _ = max a b := h
        _ = a := max_eq_left hab
    · right
      exact List.mem_cons.2 (Or.inr h)

theorem le_qmax {l : List ℚ} {x : ℚ} (hx : x ∈ l) : x ≤ qmax l := by
  cases l with
  | nil => cases hx
  | cons a t =>
    rcases List.mem_cons.1 hx with rfl | hx
    · exact foldl_max_le_init t x
    · exact foldl_max_le_mem t a x hx

theorem qmax_mem {l : List ℚ} (h : l ≠ []) : qmax l ∈ l := by
  cases l with
  | nil => exact absurd rfl h
  | cons a t =>
    rcases foldl_max_mem t a with h' | h'
    · exact List.mem_cons.2 (Or.inl h')
    · exact List.mem_cons.2 (Or.inr h')

/-! ### Position-based list selection and deletion -/

theorem mem_selectIdxs {α : Type} {l : List α} {S : List Nat} {a : α} :
    a ∈ selectIdxs l S ↔ ∃ i ∈ S, l.get? i = some a := by
  simp [selectIdxs, List.mem_filterMap]

theorem mem_deleteIdxs {α : Type} {l : List α} {S : List Nat} {a : α} :
    a ∈ deleteIdxs l S ↔ ∃ i, i ∉ S ∧ l.get? i = some a := by
  simp only [deleteIdxs, List.mem_filterMap, List.mem_filter, List.mem_range,
    decide_eq_true_eq]
  constructor
  · rintro ⟨i, ⟨-, hns⟩, hget⟩
    exact ⟨i, hns, hget⟩
  · rintro ⟨i, hns, hget⟩
    have hi : i < l.length := by
      by_contra h
      rw [List.get?_eq_none.2 (le_of_not_lt h)] at hget
      cases hget
    exact ⟨i, ⟨hi, hns⟩, hget⟩

theorem get?_eq_some_unique {α : Type} {l : List α} (hN : l.Nodup) {i j : Nat} {a : α}
    (hi : l.get? i = some a) (hj : l.get? j = some a) : i = j := by
  have hlen : i < l.length := by
    by_contra h
    rw [List.get?_eq_none.2 (le_of_not_lt h)] at hi
    cases hi
  apply List.getElem?_inj hlen hN
  rw [← List.get?_eq_getElem?, ← List.get?_eq_getElem?, hi, hj]

/-- Selecting positions of a strictly ascending index list yields a sublist. -/
theorem filterMap_get?_shift {α : Type} (a : α) (t : List α) :
    ∀ (S : List Nat), (∀ j ∈ S, 0 < j) →
      S.filterMap (a :: t).get? = (S.map (· - 1)).filterMap t.get? := by
  intro S
  induction S with
  | nil => simp
  | cons j S ih =>
    intro h
    have hj : 0 < j := h j (List.mem_cons_self _ _)
    obtain ⟨k, rfl⟩ : ∃ k, j = k + 1 := ⟨j - 1, by omega⟩
    have ht : S.filterMap (a :: t).get? = (S.map (· - 1)).filterMap t.get? :=
      ih (fun x hx => h x (List.mem_cons_of_mem _ hx))
    simp only [List.filterMap_cons, List.map_cons, List.get?_cons_succ, Nat.add_sub_cancel, ht]

theorem filterMap_get?_sublist {α : Type} :
    ∀ (l : List α) (S : List Nat), S.Pairwise (· < ·) → List.Sublist (S.filterMap l.get?) l := by
  intro l
  induction l with
  | nil =>
    intro S _
    have h : S.filterMap (List.get? ([] : List α)) = [] := by
      induction S with
      | nil => rfl
      | cons i S ih => simp [List.filterMap_cons, ih]
    rw [h]
  | cons a t ih =>
    intro S hS
    cases S with
    | nil => exact List.nil_sublist _
    | cons i S' =>
      have hall : ∀ j ∈ S', i < j := fun j hj => List.rel_of_pairwise_cons hS hj
      have hS' : S'.Pairwise (· < ·) := hS.of_cons
      cases i with
      | zero =>
        have hpos : ∀ j ∈ S', 0 < j := fun j hj => hall j hj
        rw [List.filterMap_cons, List.get?_cons_zero, filterMap_get?_shift a t S' hpos]
        refine List.Sublist.cons₂ a (ih _ ?_)
        refine List.pairwise_map.2 (hS'.imp_of_mem ?_)
        intro x y hx _ hxy
        have := hpos x hx
        omega
      | succ k =>
        have hpos : ∀ j ∈ ((k + 1) :: S'), 0 < j := by
          intro j hj
          rcases List.mem_cons.1 hj with rfl | hj
          · omega
          · have := hall j hj
            omega
        rw [filterMap_get?_shift a t _ hpos]
        refine List.Sublist.cons a (ih _ ?_)
        refine List.pairwise_map.2 ?_
        refine List.Pairwise.imp_of_mem ?_ hS
        intro x y hx _ hxy
        have := hpos x hx
        omega

theorem selectIdxs_sublist {α : Type} (l : List α) (S : List Nat)
    (hS : S.Pairwise (· < ·)) : List.Sublist (selectIdxs l S) l :=
  filterMap_get?_sublist l S hS

theorem deleteIdxs_sublist {α : Type} (l : List α) (S : List Nat) :
    List.Sublist (deleteIdxs l S) l := by
  refine filterMap_get?_sublist l _ ?_
  exact (List.pairwise_lt_range l.length).sublist (List.filter_sublist _)

theorem selectIdxs_subset {α : Type} {l : List α} {S : List Nat} {a : α}
    (ha : a ∈ selectIdxs l S) : a ∈ l := by
  obtain ⟨i, -, hget⟩ := mem_selectIdxs.1 ha
  exact List.get?_mem hget

theorem deleteIdxs_subset {α : Type} {l : List α} {S : List Nat} {a : α}
    (ha : a ∈ deleteIdxs l S) : a ∈ l := by
  obtain ⟨i, -, hget⟩ := mem_deleteIdxs.1 ha
  exact List.get?_mem hget

/-- Under distinctness, deletion keeps exactly the entries not selected. -/
theorem mem_deleteIdxs_iff {α : Type} {l : List α} {S : List Nat} (hN : l.Nodup) {a : α} :
    a ∈ deleteIdxs l S ↔ a ∈ l ∧ a ∉ selectIdxs l S := by
  constructor
  · intro hd
    obtain ⟨j, hjS, hgj⟩ := mem_deleteIdxs.1 hd
    refine ⟨List.get?_mem hgj, ?_⟩
    intro hs
    obtain ⟨i, hiS, hgi⟩ := mem_selectIdxs.1 hs
    exact hjS (get?_eq_some_unique hN hgj hgi ▸ hiS)
  · rintro ⟨hal, hns⟩
    obtain ⟨i, hgi⟩ := List.mem_iff_get?.1 hal
    refine mem_deleteIdxs.2 ⟨i, ?_, hgi⟩
    intro hiS
    exact hns (mem_selectIdxs.2 ⟨i, hiS, hgi⟩)

theorem filterMap_get?_length {α : Type} (l : List α) :
    ∀ (S : List Nat), (∀ i ∈ S, i < l.length) → (S.filterMap l.get?).length = S.length := by
  intro S
  induction S with
  | nil => simp
  | cons i S ih =>
    intro h
    have hi : i < l.length := h i (List.mem_cons_self _ _)
    obtain ⟨a, ha⟩ : ∃ a, l.get? i = some a := by
      cases hget : l.get? i with
      | none => exact absurd (List.get?_eq_none.1 hget) (not_le.2 hi)
      | some a => exact ⟨a, rfl⟩
    have ha' : l[i]? = some a := by
      rw [← List.get?_eq_getElem?]
      exact ha
    simp [List.filterMap_cons, ha, ha', ih (fun x hx => h x (List.mem_cons_of_mem _ hx))]

theorem selectIdxs_length {α : Type} (l : List α) (S : List Nat)
    (h : ∀ i ∈ S, i < l.length) : (selectIdxs l S).length = S.length :=
  filterMap_get?_length l S h

theorem length_filter_mem (S : List Nat) (n : Nat) (hS : S.Nodup) (hsub : ∀ i ∈ S, i < n) :
    ((List.range n).filter (fun i => decide (i ∈ S))).length = S.length := by
  have hA : ((List.range n).filter (fun i => decide (i ∈ S))).Nodup :=
    (List.nodup_range n).filter _
  have hAS : (List.range n).filter (fun i => decide (i ∈ S)) ⊆ S := by
    intro i hi
    have := List.of_mem_filter hi
    simpa using this
  have hSA : S ⊆ (List.range n).filter (fun i => decide (i ∈ S)) := by
    intro i hi
    exact List.mem_filter.2 ⟨List.mem_range.2 (hsub i hi), by simpa using hi⟩
  exact le_antisymm ((hA.subperm hAS).length_le) ((hS.subperm hSA).length_le)

theorem length_filter_split (S : List Nat) :
    ∀ (l : List Nat),
      (l.filter (fun i => decide (i ∉ S))).length + (l.filter (fun i => decide (i ∈ S))).length
        = l.length := by
  intro l
  induction l with
  | nil => rfl
  | cons a t ih =>
    simp only [decide_not] at ih ⊢
    by_cases h : a ∈ S <;> simp [List.filter_cons, h] <;> omega

theorem deleteIdxs_length {α : Type} (l : List α) (S : List Nat) (hS : S.Nodup)
    (hsub : ∀ i ∈ S, i < l.length) :
    (deleteIdxs l S).length = l.length - S.length := by
  unfold deleteIdxs
  rw [filterMap_get?_length]
  · have h1 := length_filter_split S (List.range l.length)
    have h3 := length_filter_mem S l.length hS hsub
    have h4 : (List.range l.length).length = l.length := List.length_range _
    omega
  · intro i hi
    exact List.mem_range.1 (List.mem_filter.1 hi).1

/-- An element at position `i` removed by `eraseIdx` (distinct entries):
membership in the erased list is membership minus the erased entry. -/
theorem mem_eraseIdx_iff {α : Type} (d : α) {l : List α} {i : Nat}
    (hN : l.Nodup) (hi : i < l.length) {a : α} :
    a ∈ l.eraseIdx i ↔ a ∈ l ∧ a ≠ l.getD i d := by
  have hx : l.getD i d = l[i] := by
    simp [List.getD_eq_getElem?_getD, List.getElem?_eq_getElem hi]
  have hl : l = l.take i ++ l[i] :: l.drop (i + 1) := by
    conv_lhs => rw [← List.take_append_drop i l]
    rw [List.drop_eq_getElem_cons hi]
  have herase : l.eraseIdx i = l.take i ++ l.drop (i + 1) :=
    List.eraseIdx_eq_take_drop_succ l i
  have hnd : (l.take i ++ l[i] :: l.drop (i + 1)).Nodup := hl ▸ hN
  rw [List.nodup_append] at hnd
  obtain ⟨-, hnd2, hdisj⟩ := hnd
  have hx_not_drop : l[i] ∉ l.drop (i + 1) := (List.nodup_cons.1 hnd2).1
  have hx_not_take : l[i] ∉ l.take i := by
    intro h
    exact hdisj h (List.mem_cons_self _ _)
  rw [hx, herase]
  constructor
  · intro h
    rcases List.mem_append.1 h with h' | h'
    · refine ⟨by rw [hl]; exact List.mem_append.2 (Or.inl h'), ?_⟩
      intro he
      exact hx_not_take (he ▸ h')
    · refine ⟨by rw [hl]; exact List.mem_append.2 (Or.inr (List.mem_cons_of_mem _ h')), ?_⟩
      intro he
      exact hx_not_drop (he ▸ h')
  · rintro ⟨hal, hne⟩
    rw [hl] at hal
    rcases List.mem_append.1 hal with h' | h'
    · exact List.mem_append.2 (Or.inl h')
    · rcases List.mem_cons.1 h' with h'' | h''
      · exact absurd h'' hne
      · exact List.mem_append.2 (Or.inr h'')

/-! ### Neighborhood and inlier index sets -/

theorem mem_localIdxs {pool : List IPt} {seed : Pt} {r : ℚ} {i : Nat} :
    i ∈ localIdxs pool seed r ↔
      i < pool.length ∧ ltNorm (ptSub (pool.getD i (0, pzero)).2 seed) r = true := by
  simp [localIdxs, List.mem_filter, List.mem_range]

theorem localIdxs_sorted (pool : List IPt) (seed : Pt) (r : ℚ) :
    (localIdxs pool seed r).Pairwise (· < ·) :=
  (List.pairwise_lt_range _).sublist (List.filter_sublist _)

theorem mem_inlierIdxs {pool : List IPt} {lIdx : List Nat} {mean dir : Pt} {thr : ℚ}
    {i : Nat} :
    i ∈ inlierIdxs pool lIdx mean dir thr ↔
      i ∈ lIdx ∧ ltNorm (crossP (ptSub (pool.getD i (0, pzero)).2 mean) dir) thr = true := by
  simp [inlierIdxs, List.mem_filter]

theorem inlierIdxs_sublist (pool : List IPt) (lIdx : List Nat) (mean dir : Pt) (thr : ℚ) :
    List.Sublist (inlierIdxs pool lIdx mean dir thr) lIdx :=
  List.filter_sublist _

theorem stepLocal_sorted (rng : Nat → Nat) (r : ℚ) (k : Nat) (pool : List IPt) :
    (stepLocal rng r k pool).Pairwise (· < ·) :=
  localIdxs_sorted _ _ _

theorem stepLocal_lt_length {rng : Nat → Nat} {r : ℚ} {k : Nat} {pool : List IPt}
    {i : Nat} (hi : i ∈ stepLocal rng r k pool) : i < pool.length :=
  (mem_localIdxs.1 hi).1

theorem stepInlIdx_sorted (svd : List Pt → Pt) (rng : Nat → Nat) (r : ℚ) (thr : ℚ)
    (k : Nat) (pool : List IPt) :
    (stepInlIdx svd rng r thr k pool).Pairwise (· < ·) :=
  (stepLocal_sorted rng r k pool).sublist (inlierIdxs_sublist _ _ _ _ _)

theorem stepInlIdx_nodup (svd : List Pt → Pt) (rng : Nat → Nat) (r : ℚ) (thr : ℚ)
    (k : Nat) (pool : List IPt) : (stepInlIdx svd rng r thr k pool).Nodup :=
  (stepInlIdx_sorted svd rng r thr k pool).imp (fun h => ne_of_lt h)

theorem stepInlIdx_subset_local {svd : List Pt → Pt} {rng : Nat → Nat} {r : ℚ} {thr : ℚ}
    {k : Nat} {pool : List IPt} {i : Nat} (hi : i ∈ stepInlIdx svd rng r thr k pool) :
    i ∈ stepLocal rng r k pool :=
  (mem_inlierIdxs.1 hi).1

theorem stepInlIdx_lt_length {svd : List Pt → Pt} {rng : Nat → Nat} {r : ℚ} {thr : ℚ}
    {k : Nat} {pool : List IPt} {i : Nat} (hi : i ∈ stepInlIdx svd rng r thr k pool) :
    i < pool.length :=
  stepLocal_lt_length (stepInlIdx_subset_local hi)

theorem stepInlIdx_length_le (svd : List Pt → Pt) (rng : Nat → Nat) (r : ℚ) (thr : ℚ)
    (k : Nat) (pool : List IPt) :
    (stepInlIdx svd rng r thr k pool).length ≤ pool.length := by
  have h := ((stepInlIdx_nodup svd rng r thr k pool).subperm
    (fun i hi => List.mem_range.2 (stepInlIdx_lt_length hi))).length_le
  simpa using h

theorem stepInl_length (svd : List Pt → Pt) (rng : Nat → Nat) (r : ℚ) (thr : ℚ)
    (k : Nat) (pool : List IPt) :
    (stepInl svd rng r thr k pool).length = (stepInlIdx svd rng r thr k pool).length :=
  selectIdxs_length _ _ (fun _ hi => stepInlIdx_lt_length hi)

theorem stepInl_sublist (svd : List Pt → Pt) (rng : Nat → Nat) (r : ℚ) (thr : ℚ)
    (k : Nat) (pool : List IPt) :
    List.Sublist (stepInl svd rng r thr k pool) pool :=
  selectIdxs_sublist _ _ (stepInlIdx_sorted svd rng r thr k pool)

/-! ### Branch analysis of `ransacStep` -/

theorem ransacStep_noise (svd : List Pt → Pt) (thr : ℚ) {rng : Nat → Nat} {r : ℚ} {ms : Nat}
    {k : Nat} {pool : List IPt} (h : (stepLocal rng r k pool).length < ms) :
    ransacStep svd rng r ms thr k pool =
      (pool.eraseIdx (stepSeedIdx rng k pool.length), none) := by
  rw [ransacStep, if_pos h]

theorem ransacStep_fail {svd : List Pt → Pt} {rng : Nat → Nat} {r : ℚ} {ms : Nat} {thr : ℚ}
    {k : Nat} {pool : List IPt} (h1 : ¬ (stepLocal rng r k pool).length < ms)
    (h2 : ¬ ms ≤ (stepInlIdx svd rng r thr k pool).length) :
    ransacStep svd rng r ms thr k pool =
      (pool.eraseIdx (stepSeedIdx rng k pool.length), none) := by
  rw [ransacStep, if_neg h1, if_neg h2]

theorem ransacStep_success {svd : List Pt → Pt} {rng : Nat → Nat} {r : ℚ} {ms : Nat} {thr : ℚ}
    {k : Nat} {pool : List IPt} (h1 : ¬ (stepLocal rng r k pool).length < ms)
    (h2 : ms ≤ (stepInlIdx svd rng r thr k pool).length) :
    ransacStep svd rng r ms thr k pool =
      (deleteIdxs pool (stepInlIdx svd rng r thr k pool),
       some (stepSeg svd rng r thr k pool, stepInl svd rng r thr k pool)) := by
  rw [ransacStep, if_neg h1, if_pos h2]

theorem ransacStep_none_pool {svd : List Pt → Pt} {rng : Nat → Nat} {r : ℚ} {ms : Nat}
    {thr : ℚ} {k : Nat} {pool : List IPt}
    (h : (ransacStep svd rng r ms thr k pool).2 = none) :
    (ransacStep svd rng r ms thr k pool).1 =
      pool.eraseIdx (stepSeedIdx rng k pool.length) := by
  unfold ransacStep at h ⊢
  split_ifs at h ⊢ <;> first | rfl | simp_all

theorem ransacStep_some {svd : List Pt → Pt} {rng : Nat → Nat} {r : ℚ} {ms : Nat}
    {thr : ℚ} {k : Nat} {pool : List IPt} {sl : Seg × List IPt}
    (h : (ransacStep svd rng r ms thr k pool).2 = some sl) :
    ¬ (stepLocal rng r k pool).length < ms
      ∧ ms ≤ (stepInlIdx svd rng r thr k pool).length
      ∧ sl = (stepSeg svd rng r thr k pool, stepInl svd rng r thr k pool)
      ∧ (ransacStep svd rng r ms thr k pool).1 =
          deleteIdxs pool (stepInlIdx svd rng r thr k pool) := by
  unfold ransacStep at h ⊢
  split_ifs at h ⊢ with h1 h2 <;> simp_all

theorem ransacStep_pool_sublist (svd : List Pt → Pt) (rng : Nat → Nat) (r : ℚ) (ms : Nat)
    (thr : ℚ) (k : Nat) (pool : List IPt) :
    List.Sublist (ransacStep svd rng r ms thr k pool).1 pool := by
  unfold ransacStep
  split_ifs
  · exact List.eraseIdx_sublist _ _
  · exact deleteIdxs_sublist _ _
  · exact List.eraseIdx_sublist _ _

theorem ransacStep_none_length {svd : List Pt → Pt} {rng : Nat → Nat} {r : ℚ} {ms : Nat}
    {thr : ℚ} {k : Nat} {pool : List IPt} (hpool : 0 < pool.length)
    (h : (ransacStep svd rng r ms thr k pool).2 = none) :
    (ransacStep svd rng r ms thr k pool).1.length = pool.length - 1 := by
  rw [ransacStep_none_pool h]
  have hidx : stepSeedIdx rng k pool.length < pool.length := Nat.mod_lt _ hpool
  have := List.length_eraseIdx_add_one hidx
  omega

theorem ransacStep_success_length {svd : List Pt → Pt} {rng : Nat → Nat} {r : ℚ} {ms : Nat}
    {thr : ℚ} {k : Nat} {pool : List IPt} {sl : Seg × List IPt}
    (h : (ransacStep svd rng r ms thr k pool).2 = some sl) :
    (ransacStep svd rng r ms thr k pool).1.length =
      pool.length - (stepInlIdx svd rng r thr k pool).length := by
  obtain ⟨-, -, -, hpool⟩ := ransacStep_some h
  rw [hpool]
  exact deleteIdxs_length _ _ (stepInlIdx_nodup svd rng r thr k pool)
    (fun _ hi => stepInlIdx_lt_length hi)

/-! ### The loop -/

theorem ransacIter_none {svd : List Pt → Pt} {rng : Nat → Nat} {r : ℚ} {ms : Nat} {thr : ℚ}
    {st : RState} (h : (ransacStep svd rng r ms thr st.iter st.pool).2 = none) :
    ransacIter svd rng r ms thr st =
      ⟨(ransacStep svd rng r ms thr st.iter st.pool).1, st.lines, st.inls, st.iter + 1⟩ := by
  have hps : ransacStep svd rng r ms thr st.iter st.pool
      = ((ransacStep svd rng r ms thr st.iter st.pool).1, none) := by
    rw [← h]
  unfold ransacIter
  rw [hps]

theorem ransacIter_some {svd : List Pt → Pt} {rng : Nat → Nat} {r : ℚ} {ms : Nat} {thr : ℚ}
    {st : RState} {sl : Seg × List IPt}
    (h : (ransacStep svd rng r ms thr st.iter st.pool).2 = some sl) :
    ransacIter svd rng r ms thr st =
      ⟨(ransacStep svd rng r ms thr st.iter st.pool).1,
        st.lines ++ [sl.1], st.inls ++ [sl.2], st.iter + 1⟩ := by
  have hps : ransacStep svd rng r ms thr st.iter st.pool
      = ((ransacStep svd rng r ms thr st.iter st.pool).1, some sl) := by
    rw [← h]
  unfold ransacIter
  rw [hps]

theorem ransacIter_iter (svd : List Pt → Pt) (rng : Nat → Nat) (r : ℚ) (ms : Nat) (thr : ℚ)
    (st : RState) : (ransacIter svd rng r ms thr st).iter = st.iter + 1 := by
  cases h : (ransacStep svd rng r ms thr st.iter st.pool).2 with
  | none => rw [ransacIter_none h]
  | some sl => rw [ransacIter_some h]

theorem ransacIter_pool (svd : List Pt → Pt) (rng : Nat → Nat) (r : ℚ) (ms : Nat) (thr : ℚ)
    (st : RState) :
    (ransacIter svd rng r ms thr st).pool = (ransacStep svd rng r ms thr st.iter st.pool).1 := by
  cases h : (ransacStep svd rng r ms thr st.iter st.pool).2 with
  | none => rw [ransacIter_none h]
  | some sl => rw [ransacIter_some h]

theorem ransacLoop_zero (svd : List Pt → Pt) (rng : Nat → Nat) (r : ℚ) (ms : Nat) (thr : ℚ)
    (st : RState) : ransacLoop svd rng r ms thr 0 st = st := rfl

theorem ransacLoop_succ (svd : List Pt → Pt) (rng : Nat → Nat) (r : ℚ) (ms : Nat) (thr : ℚ)
    (fuel : Nat) (st : RState) :
    ransacLoop svd rng r ms thr (fuel + 1) st =
      if ms < st.pool.length then
        ransacLoop svd rng r ms thr fuel (ransacIter svd rng r ms thr st)
      else st := rfl

theorem ransacLoop_stop {ms : Nat} {st : RState} (svd : List Pt → Pt) (rng : Nat → Nat)
    (r : ℚ) (thr : ℚ) (fuel : Nat) (h : ¬ ms < st.pool.length) :
    ransacLoop svd rng r ms thr fuel st = st := by
  cases fuel with
  | zero => rfl
  | succ n => rw [ransacLoop_succ, if_neg h]

theorem ransacLoop_go {ms : Nat} {st : RState} (svd : List Pt → Pt) (rng : Nat → Nat)
    (r : ℚ) (thr : ℚ) (fuel : Nat) (h : ms < st.pool.length) :
    ransacLoop svd rng r ms thr (fuel + 1) st =
      ransacLoop svd rng r ms thr fuel (ransacIter svd rng r ms thr st) := by
  rw [ransacLoop_succ, if_pos h]

/-! ### Conservation invariant (claim C2) -/


theorem poolInv_init (data : List Pt) : PoolInv data (initState data) := by
  refine ⟨List.Sublist.refl _, ?_, ?_, ?_, ?_, rfl⟩ <;> simp [initState]

theorem poolInv_iter (data : List Pt) (svd : List Pt → Pt) (rng : Nat → Nat) (r : ℚ)
    (ms : Nat) (thr : ℚ) (st : RState) (h : PoolInv data st) :
    PoolInv data (ransacIter svd rng r ms thr st) := by
  obtain ⟨hsub, hmem, hdisj, hnd, hrem, hlen⟩ := h
  have hfstN : (st.pool.map Prod.fst).Nodup :=
    (List.nodup_enum_map_fst data).sublist (hsub.map _)
  have hpoolN : st.pool.Nodup := hfstN.of_map
  have hsub' : List.Sublist (ransacStep svd rng r ms thr st.iter st.pool).1 st.pool :=
    ransacStep_pool_sublist svd rng r ms thr st.iter st.pool
  cases hstep : (ransacStep svd rng r ms thr st.iter st.pool).2 with
  | none =>
    rw [ransacIter_none hstep]
    refine ⟨hsub'.trans hsub, hmem, hdisj, hnd, ?_, hlen⟩
    intro g hg e he hmem'
    exact hrem g hg e he ((hsub'.map Prod.fst).subset hmem')
  | some sl =>
    obtain ⟨h1, h2, hsl, hpool'⟩ := ransacStep_some hstep
    rw [ransacIter_some hstep]
    subst hsl
    have hinl_sub : stepInl svd rng r thr st.iter st.pool ⊆ st.pool :=
      (stepInl_sublist svd rng r thr st.iter st.pool).subset
    have hinl_fst_sub :
        (stepInl svd rng r thr st.iter st.pool).map Prod.fst ⊆ st.pool.map Prod.fst :=
      ((stepInl_sublist svd rng r thr st.iter st.pool).map Prod.fst).subset
    refine ⟨hsub'.trans hsub, ?_, ?_, ?_, ?_, ?_⟩
    · intro g hg e he
      rcases List.mem_append.1 hg with hg' | hg'
      · exact hmem g hg' e he
      · rw [List.mem_singleton] at hg'
        subst hg'
        exact hsub.subset (hinl_sub he)
    · rw [List.map_append]
      refine List.pairwise_append.2 ⟨hdisj, List.pairwise_singleton _ _, ?_⟩
      intro gf hgf inlf hinlf
      simp only [List.map_cons, List.map_nil, List.mem_singleton] at hinlf
      subst hinlf
      obtain ⟨g, hg, rfl⟩ := List.mem_map.1 hgf
      intro x hx hx'
      obtain ⟨e, he, rfl⟩ := List.mem_map.1 hx
      exact hrem g hg e he (hinl_fst_sub hx')
    · intro g hg
      rcases List.mem_append.1 hg with hg' | hg'
      · exact hnd g hg'
      · rw [List.mem_singleton] at hg'
        subst hg'
        exact hfstN.sublist ((stepInl_sublist svd rng r thr st.iter st.pool).map Prod.fst)
    · intro g hg e he hmem'
      obtain ⟨f, hf, hfe⟩ := List.mem_map.1 hmem'
      have hf_pool : f ∈ st.pool := hsub'.subset hf
      rcases List.mem_append.1 hg with hg' | hg'
      · exact hrem g hg' e he (hfe ▸ List.mem_map_of_mem Prod.fst hf_pool)
      · rw [List.mem_singleton] at hg'
        subst hg'
        have he_pool : e ∈ st.pool := hinl_sub he
        have hef : e = f := List.inj_on_of_nodup_map hfstN he_pool hf_pool hfe.symm
        subst hef
        have : e ∈ deleteIdxs st.pool (stepInlIdx svd rng r thr st.iter st.pool) := by
          rw [← hpool']
          exact hf
        exact ((mem_deleteIdxs_iff hpoolN).1 this).2 he
    · simp only [List.length_append, List.length_cons, List.length_nil]
      omega

theorem poolInv_loop (data : List Pt) (svd : List Pt → Pt) (rng : Nat → Nat) (r : ℚ)
    (ms : Nat) (thr : ℚ) :
    ∀ (fuel : Nat) (st : RState), PoolInv data st →
      PoolInv data (ransacLoop svd rng r ms thr fuel st) := by
  intro fuel
  induction fuel with
  | zero => intro st h; exact h
  | succ n ih =>
    intro st h
    rw [ransacLoop_succ]
    by_cases hg : ms < st.pool.length
    · rw [if_pos hg]
      exact ih _ (poolInv_iter data svd rng r ms thr st h)
    · rw [if_neg hg]
      exact h

theorem poolInv_run (svd : List Pt → Pt) (rng : Nat → Nat) (data : List Pt) (r : ℚ)
    (ms : Nat) (thr : ℚ) : PoolInv data (run_full svd rng data r ms thr) :=
  poolInv_loop data svd rng r ms thr max_iterations (initState data) (poolInv_init data)

/-! ### Progress and termination measures (claims C7, C10) -/

theorem ransacLoop_iter_le (svd : List Pt → Pt) (rng : Nat → Nat) (r : ℚ) (ms : Nat)
    (thr : ℚ) : ∀ (fuel : Nat) (st : RState),
    (ransacLoop svd rng r ms thr fuel st).iter ≤ st.iter + fuel := by
  intro fuel
  induction fuel with
  | zero => intro st; simp [ransacLoop_zero]
  | succ n ih =>
    intro st
    rw [ransacLoop_succ]
    by_cases hg : ms < st.pool.length
    · rw [if_pos hg]
      have h1 := ih (ransacIter svd rng r ms thr st)
      have h2 := ransacIter_iter svd rng r ms thr st
      omega
    · rw [if_neg hg]
      omega

theorem ransacIter_progress (svd : List Pt → Pt) (rng : Nat → Nat) (r : ℚ) (thr : ℚ)
    {ms : Nat} {st : RState} (hms : 1 ≤ ms) (hg : ms < st.pool.length) :
    (ransacIter svd rng r ms thr st).iter = st.iter + 1
      ∧ (ransacIter svd rng r ms thr st).pool.length < st.pool.length
      ∧ ms * (ransacIter svd rng r ms thr st).lines.length
          + (ransacIter svd rng r ms thr st).pool.length
        ≤ ms * st.lines.length + st.pool.length := by
  have hpool : 0 < st.pool.length := by omega
  cases hstep : (ransacStep svd rng r ms thr st.iter st.pool).2 with
  | none =>
    have hlen := ransacStep_none_length hpool hstep
    rw [ransacIter_none hstep]
    refine ⟨rfl, ?_, ?_⟩ <;> simp only [hlen] <;> omega
  | some sl =>
    obtain ⟨-, h2, -, -⟩ := ransacStep_some hstep
    have hlen := ransacStep_success_length hstep
    have hle := stepInlIdx_length_le svd rng r thr st.iter st.pool
    rw [ransacIter_some hstep]
    refine ⟨rfl, ?_, ?_⟩
    · simp only [hlen]
      omega
    · simp only [hlen, List.length_append, List.length_cons, List.length_nil, Nat.zero_add]
      have : ms * (st.lines.length + 1) = ms * st.lines.length + ms := by ring
      omega

theorem ransacLoop_measure (svd : List Pt → Pt) (rng : Nat → Nat) (r : ℚ) (ms : Nat)
    (thr : ℚ) (hms : 1 ≤ ms) : ∀ (fuel : Nat) (st : RState),
    (ransacLoop svd rng r ms thr fuel st).iter
        + (ransacLoop svd rng r ms thr fuel st).pool.length
      ≤ st.iter + st.pool.length
    ∧ ms * (ransacLoop svd rng r ms thr fuel st).lines.length
        + (ransacLoop svd rng r ms thr fuel st).pool.length
      ≤ ms * st.lines.length + st.pool.length := by
  intro fuel
  induction fuel with
  | zero => intro st; simp [ransacLoop_zero]
  | succ n ih =>
    intro st
    rw [ransacLoop_succ]
    by_cases hg : ms < st.pool.length
    · rw [if_pos hg]
      obtain ⟨hit, hlt, hmeas⟩ := ransacIter_progress svd rng r thr hms hg
      obtain ⟨ih1, ih2⟩ := ih (ransacIter svd rng r ms thr st)
      omega
    · rw [if_neg hg]
      omega

/-! ### Scattered input (claim C8) -/


theorem enum_entry_eq {data : List Pt} {e : IPt} (he : e ∈ data.enum) :
    e.1 < data.length ∧ e.2 = data.getD e.1 pzero := by
  obtain ⟨i, x⟩ := e
  have h : data[i]? = some x := List.mk_mem_enum_iff_getElem?.1 he
  have hi : i < data.length := by
    by_contra hc
    rw [List.getElem?_eq_none (le_of_not_lt hc)] at h
    cases h
  refine ⟨hi, ?_⟩
  rw [List.getD_eq_getElem?_getD, h]
  rfl

theorem getD_mem {α : Type} {l : List α} {i : Nat} (d : α) (hi : i < l.length) :
    l.getD i d ∈ l := by
  rw [List.getD_eq_getElem?_getD, List.getElem?_eq_getElem hi]
  exact List.getElem_mem _

theorem getD_fst_ne {pool : List IPt} (hN : (pool.map Prod.fst).Nodup) {i j : Nat}
    (hi : i < pool.length) (hj : j < pool.length) (hij : i ≠ j) (d : IPt) :
    (pool.getD i d).1 ≠ (pool.getD j d).1 := by
  have hi' : i < (pool.map Prod.fst).length := by simpa using hi
  have hj' : j < (pool.map Prod.fst).length := by simpa using hj
  have h1 : (pool.getD i d).1 = (pool.map Prod.fst)[i] := by
    simp [List.getD_eq_getElem?_getD, List.getElem?_eq_getElem hi]
  have h2 : (pool.getD j d).1 = (pool.map Prod.fst)[j] := by
    simp [List.getD_eq_getElem?_getD, List.getElem?_eq_getElem hj]
  rw [h1, h2]
  intro heq
  exact hij (hN.getElem_inj_iff.1 heq)

theorem length_le_one_of_all_eq {l : List Nat} (hN : l.Nodup) (a : Nat)
    (h : ∀ x ∈ l, x = a) : l.length ≤ 1 := by
  cases l with
  | nil => simp
  | cons x t =>
    cases t with
    | nil => simp
    | cons y t' =>
      exfalso
      have hx : x = a := h x (List.mem_cons_self _ _)
      have hy : y = a := h y (List.mem_cons_of_mem _ (List.mem_cons_self _ _))
      have := (List.nodup_cons.1 hN).1
      rw [hx, hy] at this
      exact this (List.mem_cons_self _ _)

/-- On a scattered pool drawn from scattered input, every neighborhood is at
most the seed itself. -/
theorem stepLocal_of_separated {data : List Pt} {r : ℚ} (hsep : Separated data r)
    {pool : List IPt} (hsub : List.Sublist pool data.enum)
    (rng : Nat → Nat) (k : Nat) (hpool : 0 < pool.length) :
    (stepLocal rng r k pool).length ≤ 1 := by
  have hfstN : (pool.map Prod.fst).Nodup :=
    (List.nodup_enum_map_fst data).sublist (hsub.map _)
  set idx := stepSeedIdx rng k pool.length with hidx
  have hidxlt : idx < pool.length := Nat.mod_lt _ hpool
  refine length_le_one_of_all_eq
    ((localIdxs_sorted _ _ _).imp (fun h => ne_of_lt h)) idx ?_
  intro i hi
  obtain ⟨hilt, hlt⟩ := mem_localIdxs.1 hi
  by_contra hne
  have hfst : (pool.getD i (0, pzero)).1 ≠ (pool.getD idx (0, pzero)).1 :=
    getD_fst_ne hfstN hilt hidxlt hne _
  have hei := enum_entry_eq (hsub.subset (getD_mem (0, pzero) hilt))
  have hes := enum_entry_eq (hsub.subset (getD_mem (0, pzero) hidxlt))
  have hfalse := hsep (pool.getD i (0, pzero)).1 (pool.getD idx (0, pzero)).1
    hei.1 hes.1 hfst
  rw [← hei.2, ← hes.2] at hfalse
  rw [stepSeed, ← hidx] at hlt
  rw [hlt] at hfalse
  cases hfalse

theorem separated_loop (data : List Pt) (r : ℚ) (hsep : Separated data r)
    (svd : List Pt → Pt) (rng : Nat → Nat) (ms : Nat) (thr : ℚ) (hms : 2 ≤ ms) :
    ∀ (fuel : Nat) (st : RState), List.Sublist st.pool data.enum →
      (ransacLoop svd rng r ms thr fuel st).lines = st.lines
      ∧ (ransacLoop svd rng r ms thr fuel st).inls = st.inls
      ∧ (st.pool.length ≤ ms + fuel →
          (ransacLoop svd rng r ms thr fuel st).pool.length ≤ ms) := by
  intro fuel
  induction fuel with
  | zero =>
    intro st hsub
    rw [ransacLoop_zero]
    exact ⟨rfl, rfl, fun h => by omega⟩
  | succ n ih =>
    intro st hsub
    rw [ransacLoop_succ]
    by_cases hg : ms < st.pool.length
    · rw [if_pos hg]
      have hpool : 0 < st.pool.length := by omega
      have hloc : (stepLocal rng r st.iter st.pool).length < ms := by
        have := stepLocal_of_separated hsep hsub rng st.iter hpool
        omega
      have hstep := ransacStep_noise svd thr hloc
      have hstep2 : (ransacStep svd rng r ms thr st.iter st.pool).2 = none := by
        rw [hstep]
      have hlen := ransacStep_none_length hpool hstep2
      have hsub' : List.Sublist (ransacStep svd rng r ms thr st.iter st.pool).1 st.pool :=
        ransacStep_pool_sublist svd rng r ms thr st.iter st.pool
      rw [ransacIter_none hstep2]
      obtain ⟨ih1, ih2, ih3⟩ := ih
        ⟨(ransacStep svd rng r ms thr st.iter st.pool).1, st.lines, st.inls, st.iter + 1⟩
        (hsub'.trans hsub)
      refine ⟨ih1, ih2, ?_⟩
      intro hfit
      refine ih3 ?_
      simp only [hlen]
      omega
    · rw [if_neg hg]
      exact ⟨rfl, rfl, fun _ => by omega⟩


theorem step5_eval : ransacStep svd0 rng0 2 2 1 0 data5.enum =
    ([(2, (10, 0, 0)), (3, (11, 0, 0)), (4, (50, 50, 50))],
     some (((0, 0, 0), (1, 0, 0)), [(0, (0, 0, 0)), (1, (1, 0, 0))])) := by
  norm_num [ransacStep, stepSeed, stepLocal, stepFit, stepInlIdx, stepInl, stepProjs,
    stepSeg, stepSeedIdx, localIdxs, selectIdxs, deleteIdxs, inlierIdxs,
    fit_line_segment, centroid, centeredPts, sumPts, ptAdd, ptSub, smulP, dotP, crossP,
    normSq, ltNorm, qmin, qmax, data5, svd0, rng0, pzero,
    List.filter, List.filterMap, List.foldl, List.getD, min_def, max_def, List.range_succ]

theorem stepInl5_eval : stepInl svd0 rng0 2 1 0 data5.enum =
    [(0, (0, 0, 0)), (1, (1, 0, 0))] := by
  norm_num [stepInl, stepInlIdx, stepLocal, stepFit, stepSeed, stepSeedIdx,
    localIdxs, selectIdxs, inlierIdxs, fit_line_segment, centroid, centeredPts, sumPts,
    ptAdd, ptSub, smulP, dotP, crossP, normSq, ltNorm, data5, svd0, rng0, pzero,
    List.filter, List.filterMap, List.foldl, List.getD, List.range_succ]

theorem iter1_eval : ransacIter svd0 rng0 2 2 1 (initState data5) =
    ⟨[(2, (10, 0, 0)), (3, (11, 0, 0)), (4, (50, 50, 50))],
     [((0, 0, 0), (1, 0, 0))], [[(0, (0, 0, 0)), (1, (1, 0, 0))]], 1⟩ := by
  norm_num [ransacIter, ransacStep, stepSeed, stepLocal, stepFit, stepInlIdx, stepInl,
    stepProjs, stepSeg, stepSeedIdx, localIdxs, selectIdxs, deleteIdxs, inlierIdxs,
    fit_line_segment, centroid, centeredPts, sumPts, ptAdd, ptSub, smulP, dotP, crossP,
    normSq, ltNorm, qmin, qmax, initState, data5, svd0, rng0, pzero,
    List.filter, List.filterMap, List.foldl, List.getD, min_def, max_def, List.range_succ]

theorem iter2_eval : ransacIter svd0 rng0 2 2 1
    ⟨[(2, (10, 0, 0)), (3, (11, 0, 0)), (4, (50, 50, 50))],
     [((0, 0, 0), (1, 0, 0))], [[(0, (0, 0, 0)), (1, (1, 0, 0))]], 1⟩ =
    ⟨[(4, (50, 50, 50))],
     [((0, 0, 0), (1, 0, 0)), ((10, 0, 0), (11, 0, 0))],
     [[(0, (0, 0, 0)), (1, (1, 0, 0))], [(2, (10, 0, 0)), (3, (11, 0, 0))]], 2⟩ := by
  norm_num [ransacIter, ransacStep, stepSeed, stepLocal, stepFit, stepInlIdx, stepInl,
    stepProjs, stepSeg, stepSeedIdx, localIdxs, selectIdxs, deleteIdxs, inlierIdxs,
    fit_line_segment, centroid, centeredPts, sumPts, ptAdd, ptSub, smulP, dotP, crossP,
    normSq, ltNorm, qmin, qmax, svd0, rng0, pzero,
    List.filter, List.filterMap, List.foldl, List.getD, min_def, max_def, List.range_succ]

theorem run5_eval : run_full svd0 rng0 data5 2 2 1 =
    ⟨[(4, (50, 50, 50))],
     [((0, 0, 0), (1, 0, 0)), ((10, 0, 0), (11, 0, 0))],
     [[(0, (0, 0, 0)), (1, (1, 0, 0))], [(2, (10, 0, 0)), (3, (11, 0, 0))]], 2⟩ := by
  rw [run_full, show max_iterations = 4998 + 1 + 1 from rfl, ransacLoop_succ,
    if_pos (by norm_num [initState, data5]), iter1_eval, ransacLoop_succ,
    if_pos (by norm_num), iter2_eval, ransacLoop_stop]
  norm_num

theorem spec1_eval : extract_spec svd0 rng0 data5 2 2 1 1 = [((0, 0, 0), (1, 0, 0))] := by
  rw [extract_spec, show (1 : Nat) = 0 + 1 from rfl, ransacLoop_succ,
    if_pos (by norm_num [initState, data5]), iter1_eval, ransacLoop_zero]

/-! ### Claim C1 -/

/-- C1 (counterexample): the claim says an empty input collection must fail
fast with an `InvalidConfiguration` error before any loop iteration.  The
code has no validation at all: called on the empty collection (with
otherwise well-formed parameters), `run_local_ransac` returns the empty
segment list as an ordinary successful result, and its state is exactly the
untouched initial state. -/
theorem C1_counterexample :
    run_local_ransac svd0 rng0 [] (1/2) 5 (1/20) = []
      ∧ run_full svd0 rng0 [] (1/2) 5 (1/20) = initState [] := by
  have h : run_full svd0 rng0 [] (1/2) 5 (1/20) = initState [] :=
    ransacLoop_stop svd0 rng0 (1/2) (1/20) max_iterations (by simp [initState])
  constructor
  · rw [run_local_ransac, h]
    rfl
  · exact h

/-- C1 (amended): `run_local_ransac` performs no input validation and has no
`InvalidConfiguration` condition; for every parameter choice (including
non-positive radius or threshold and `min_samples < 2`) an empty input
collection yields an empty successful result with the loop never entered,
the parameters being used exactly as passed (never clamped). -/
theorem C1_no_validation (svd : List Pt → Pt) (rng : Nat → Nat) (r : ℚ) (ms : Nat) (thr : ℚ) :
    run_full svd rng [] r ms thr = initState []
      ∧ run_local_ransac svd rng [] r ms thr = [] := by
  have h : run_full svd rng [] r ms thr = initState [] :=
    ransacLoop_stop svd rng r thr max_iterations (by simp [initState])
  constructor
  · exact h
  · rw [run_local_ransac, h]
    rfl

/-! ### Claim C2 -/

/-- C2: conservation.  For every run (any SVD collaborator, random stream,
input and parameters): every entry of an emitted segment's inlier set is an
entry `(i, data[i])` of the tagged original input (present exactly once, by
original position); each inlier set holds no original position twice; the
inlier sets of distinct accepted segments are pairwise disjoint by original
position; a consumed original position never reappears in the pool; the
final pool is a sublist of the original tagged input; there is exactly one
recorded inlier set per emitted segment; and a single loop step only ever
shrinks the pool (sublist, hence no re-insertion). -/
theorem C2_conservation (svd : List Pt → Pt) (rng : Nat → Nat) (data : List Pt) (r : ℚ)
    (ms : Nat) (thr : ℚ) :
    (∀ g ∈ (run_full svd rng data r ms thr).inls, ∀ e ∈ g, e ∈ data.enum)
    ∧ (∀ g ∈ (run_full svd rng data r ms thr).inls, (g.map Prod.fst).Nodup)
    ∧ ((run_full svd rng data r ms thr).inls.map (List.map Prod.fst)).Pairwise List.Disjoint
    ∧ (∀ g ∈ (run_full svd rng data r ms thr).inls, ∀ e ∈ g,
        e.1 ∉ (run_full svd rng data r ms thr).pool.map Prod.fst)
    ∧ List.Sublist (run_full svd rng data r ms thr).pool data.enum
    ∧ (run_full svd rng data r ms thr).inls.length
        = (run_local_ransac svd rng data r ms thr).length
    ∧ ∀ (k : Nat) (pool : List IPt),
        List.Sublist (ransacStep svd rng r ms thr k pool).1 pool := by
  obtain ⟨h1, h2, h3, h4, h5, h6⟩ := poolInv_run svd rng data r ms thr
  exact ⟨h2, h4, h3, h5, h1, h6, fun k pool => ransacStep_pool_sublist svd rng r ms thr k pool⟩

/-- C2 witness: in the concrete two-cluster run, the first emitted segment's
first inlier is the original input entry `(0, (0,0,0))`. -/
theorem C2_witness : ((0 : Nat), ((0 : ℚ), (0 : ℚ), (0 : ℚ))) ∈ data5.enum := by
  refine (C2_conservation svd0 rng0 data5 2 2 1).1
    [(0, (0, 0, 0)), (1, (1, 0, 0))] ?_ (0, (0, 0, 0)) ?_
  · rw [run5_eval]
    simp
  · simp

/-! ### Claim C7 -/

/-- C7 (counterexample): `max_iterations` is not caller-supplied — it is the
constant `5000` fixed inside `run_local_ransac`.  On the two-cluster input,
the spec-modelled `extract` with a caller-supplied cap of `1` stops after one
iteration with one segment, while the code executes `2` iterations and emits
`2` segments: no caller-supplied bound governs the code's loop. -/
theorem C7_counterexample :
    extract_spec svd0 rng0 data5 2 2 1 1 = [((0, 0, 0), (1, 0, 0))]
      ∧ run_local_ransac svd0 rng0 data5 2 2 1
          = [((0, 0, 0), (1, 0, 0)), ((10, 0, 0), (11, 0, 0))]
      ∧ extract_spec svd0 rng0 data5 2 2 1 1 ≠ run_local_ransac svd0 rng0 data5 2 2 1
      ∧ (run_full svd0 rng0 data5 2 2 1).iter = 2 := by
  have h1 := spec1_eval
  have h2 : run_local_ransac svd0 rng0 data5 2 2 1
      = [((0, 0, 0), (1, 0, 0)), ((10, 0, 0), (11, 0, 0))] := by
    rw [run_local_ransac, run5_eval]
  refine ⟨h1, h2, ?_, by rw [run5_eval]⟩
  rw [h1, h2]
  simp

/-- C7 (amended): the loop of `run_local_ransac` continues exactly while
`size(pool) > min_samples` and fewer than `5000` iterations have run, the
iteration cap being the constant `5000` hardcoded in the function (not a
caller parameter); the loop stops as soon as either condition fails and the
iteration counter never exceeds the cap's remaining budget. -/
theorem C7_loop_guard (svd : List Pt → Pt) (rng : Nat → Nat) (data : List Pt) (r : ℚ)
    (ms : Nat) (thr : ℚ) (fuel : Nat) (st : RState) :
    run_full svd rng data r ms thr = ransacLoop svd rng r ms thr 5000 (initState data)
    ∧ run_local_ransac svd rng data r ms thr
        = (ransacLoop svd rng r ms thr 5000 (initState data)).lines
    ∧ (¬ ms < st.pool.length → ransacLoop svd rng r ms thr fuel st = st)
    ∧ ransacLoop svd rng r ms thr 0 st = st
    ∧ (ms < st.pool.length → ransacLoop svd rng r ms thr (fuel + 1) st
        = ransacLoop svd rng r ms thr fuel (ransacIter svd rng r ms thr st))
    ∧ (ransacLoop svd rng r ms thr fuel st).iter ≤ st.iter + fuel := by
  refine ⟨rfl, rfl, ?_, rfl, ?_, ?_⟩
  · intro h
    exact ransacLoop_stop svd rng r thr fuel h
  · intro h
    exact ransacLoop_go svd rng r thr fuel h
  · exact ransacLoop_iter_le svd rng r ms thr fuel st

/-- C7 witness: the loop stops immediately on a pool not larger than
`min_samples` (empty input, any fuel). -/
theorem C7_witness :
    ransacLoop svd0 rng0 1 2 1 7 (initState []) = initState [] :=
  (C7_loop_guard svd0 rng0 [] 1 2 1 7 (initState [])).2.2.1 (by simp [initState])

/-! ### Claim C10 -/

/-- C10: when `1 ≤ min_samples`, every executed loop iteration removes at
least one point from the pool (a successful step removes at least
`min_samples`: its new pool plus `min_samples` still fits in the old pool);
consequently for an input of `n` points the loop executes at most `n`
iterations regardless of the `5000` cap, and at most `n / min_samples`
segments are emitted. -/
theorem C10_progress (svd : List Pt → Pt) (rng : Nat → Nat) (data : List Pt) (r : ℚ)
    (ms : Nat) (thr : ℚ) (hms : 1 ≤ ms) :
    (∀ st : RState, ms < st.pool.length →
        (ransacIter svd rng r ms thr st).iter = st.iter + 1
        ∧ (ransacIter svd rng r ms thr st).pool.length < st.pool.length)
    ∧ (∀ (k : Nat) (pool : List IPt) (sl : Seg × List IPt),
        (ransacStep svd rng r ms thr k pool).2 = some sl →
        (ransacStep svd rng r ms thr k pool).1.length + ms ≤ pool.length)
    ∧ (run_full svd rng data r ms thr).iter ≤ data.length
    ∧ ms * (run_local_ransac svd rng data r ms thr).length ≤ data.length
    ∧ (run_local_ransac svd rng data r ms thr).length ≤ data.length / ms := by
  have hlen0 : (initState data).pool.length = data.length := by
    simp [initState]
  obtain ⟨m1, m2⟩ := ransacLoop_measure svd rng r ms thr hms max_iterations (initState data)
  rw [show ransacLoop svd rng r ms thr max_iterations (initState data)
      = run_full svd rng data r ms thr from rfl] at m1 m2
  simp only [initState] at m1 m2
  have hiter : (run_full svd rng data r ms thr).iter ≤ data.length := by
    have := List.enum_length (l := data)
    omega
  have hseg : ms * (run_full svd rng data r ms thr).lines.length ≤ data.length := by
    have := List.enum_length (l := data)
    simp only [List.length_nil, Nat.mul_zero] at m2
    omega
  refine ⟨?_, ?_, hiter, hseg, ?_⟩
  · intro st hg
    exact ⟨(ransacIter_progress svd rng r thr hms hg).1,
      (ransacIter_progress svd rng r thr hms hg).2.1⟩
  · intro k pool sl hsl
    have h1 := ransacStep_success_length hsl
    have h2 := (ransacStep_some hsl).2.1
    have h3 := stepInlIdx_length_le svd rng r thr k pool
    omega
  · rw [Nat.le_div_iff_mul_le (by omega : 0 < ms)]
    have heq : (run_local_ransac svd rng data r ms thr).length
        = (run_full svd rng data r ms thr).lines.length := rfl
    rw [heq, Nat.mul_comm]
    exact hseg

/-- C10 witness: the two-cluster run of 5 points with `min_samples = 2`
emits at most `5 / 2` segments. -/
theorem C10_witness :
    2 * (run_local_ransac svd0 rng0 data5 2 2 1).length ≤ data5.length :=
  (C10_progress svd0 rng0 data5 2 2 1 (by norm_num)).2.2.2.1

theorem get?_getD {α : Type} {l : List α} {i : Nat} (d : α) (hi : i < l.length) :
    l.get? i = some (l.getD i d) := by
  rw [List.get?_eq_getElem?, List.getElem?_eq_getElem hi, List.getD_eq_getElem?_getD,
    List.getElem?_eq_getElem hi]
  rfl

/-! ### Claim C3 -/

/-- C3: for every accepted segment (any success step of any run), the
recorded inliers are the step's classified inliers; the projection list is
`t = dot(p - anchor, direction)` over exactly those inliers; the two
endpoints are `anchor + direction * min(t)` and `anchor + direction * max(t)`
(hence both lie on the fitted line); and `min(t)`, `max(t)` are attained
projections bounding every inlier's projection — the segment spans exactly
its inliers' projection range. -/
theorem C3_endpoints (svd : List Pt → Pt) (rng : Nat → Nat) (r : ℚ) (ms : Nat) (thr : ℚ)
    (k : Nat) (pool : List IPt) (seg : Seg) (inl : List IPt) (hms : 1 ≤ ms)
    (h : (ransacStep svd rng r ms thr k pool).2 = some (seg, inl)) :
    inl = stepInl svd rng r thr k pool
    ∧ stepProjs svd rng r thr k pool
        = inl.map (fun q => dotP (ptSub q.2 (stepFit svd rng r k pool).1)
            (stepFit svd rng r k pool).2)
    ∧ seg.1 = ptAdd (stepFit svd rng r k pool).1
        (smulP (qmin (stepProjs svd rng r thr k pool)) (stepFit svd rng r k pool).2)
    ∧ seg.2 = ptAdd (stepFit svd rng r k pool).1
        (smulP (qmax (stepProjs svd rng r thr k pool)) (stepFit svd rng r k pool).2)
    ∧ qmin (stepProjs svd rng r thr k pool) ∈ stepProjs svd rng r thr k pool
    ∧ qmax (stepProjs svd rng r thr k pool) ∈ stepProjs svd rng r thr k pool
    ∧ ∀ t ∈ stepProjs svd rng r thr k pool,
        qmin (stepProjs svd rng r thr k pool) ≤ t
          ∧ t ≤ qmax (stepProjs svd rng r thr k pool) := by
  obtain ⟨-, h2, hsl, -⟩ := ransacStep_some h
  have hseg : seg = stepSeg svd rng r thr k pool := congrArg Prod.fst hsl
  have hinl : inl = stepInl svd rng r thr k pool := congrArg Prod.snd hsl
  subst hseg
  subst hinl
  have hlen : (stepProjs svd rng r thr k pool).length
      = (stepInlIdx svd rng r thr k pool).length := by
    rw [stepProjs, List.length_map, stepInl_length]
  have hne : stepProjs svd rng r thr k pool ≠ [] := by
    intro hnil
    rw [hnil] at hlen
    simp only [List.length_nil] at hlen
    omega
  exact ⟨rfl, rfl, rfl, rfl, qmin_mem hne, qmax_mem hne,
    fun t ht => ⟨qmin_le ht, le_qmax ht⟩⟩

/-- C3 witness: on the two-cluster fixture's first (successful) step, the
minimum projection is attained by one of the inliers. -/
theorem C3_witness :
    qmin (stepProjs svd0 rng0 2 1 0 data5.enum) ∈ stepProjs svd0 rng0 2 1 0 data5.enum :=
  (C3_endpoints svd0 rng0 2 2 1 0 data5.enum ((0, 0, 0), (1, 0, 0))
    [(0, (0, 0, 0)), (1, (1, 0, 0))] (by norm_num) (by rw [step5_eval])).2.2.2.2.1

/-! ### Claim C4 -/

/-- C4: frame effect of one loop iteration, on a pool with duplicate-free
original positions.  When the step rejects (noise branch: neighborhood below
`min_samples`) or fails (inliers below `min_samples`), exactly the seed
entry is removed: the new pool is `eraseIdx` at the seed index and an entry
survives iff it is a pool entry other than the seed entry.  When the step
succeeds, exactly the classified inliers are removed: the new pool is the
deletion of the inlier positions, an entry survives iff it is a pool entry
not among the step's inliers, and every local-neighborhood position that was
not classified as an inlier keeps its entry in the pool (available to later
seeds). -/
theorem C4_removal (svd : List Pt → Pt) (rng : Nat → Nat) (r : ℚ) (ms : Nat) (thr : ℚ)
    (k : Nat) (pool : List IPt) (hN : (pool.map Prod.fst).Nodup) (hpool : 0 < pool.length) :
    ((ransacStep svd rng r ms thr k pool).2 = none →
      (ransacStep svd rng r ms thr k pool).1
          = pool.eraseIdx (stepSeedIdx rng k pool.length)
      ∧ ∀ e : IPt, e ∈ (ransacStep svd rng r ms thr k pool).1
          ↔ e ∈ pool ∧ e ≠ pool.getD (stepSeedIdx rng k pool.length) (0, pzero))
    ∧ (∀ sl : Seg × List IPt, (ransacStep svd rng r ms thr k pool).2 = some sl →
      (ransacStep svd rng r ms thr k pool).1
          = deleteIdxs pool (stepInlIdx svd rng r thr k pool)
      ∧ (∀ e : IPt, e ∈ (ransacStep svd rng r ms thr k pool).1
          ↔ e ∈ pool ∧ e ∉ stepInl svd rng r thr k pool)
      ∧ ∀ i ∈ stepLocal rng r k pool, i ∉ stepInlIdx svd rng r thr k pool →
          pool.getD i (0, pzero) ∈ (ransacStep svd rng r ms thr k pool).1) := by
  have hpN : pool.Nodup := hN.of_map
  constructor
  · intro h
    have hp := ransacStep_none_pool h
    refine ⟨hp, ?_⟩
    intro e
    rw [hp]
    exact mem_eraseIdx_iff (0, pzero) hpN (Nat.mod_lt _ hpool)
  · intro sl h
    obtain ⟨-, -, -, hp⟩ := ransacStep_some h
    refine ⟨hp, ?_, ?_⟩
    · intro e
      rw [hp]
      exact mem_deleteIdxs_iff hpN
    · intro i hiL hiS
      rw [hp]
      exact mem_deleteIdxs.2 ⟨i, hiS, get?_getD _ (stepLocal_lt_length hiL)⟩

/-- C4 witness: in the two-cluster fixture's first (successful) step, the
pool entry `(2, (10,0,0))` — in the pool but not an inlier — survives. -/
theorem C4_witness :
    ((2 : Nat), ((10 : ℚ), (0 : ℚ), (0 : ℚ))) ∈ (ransacStep svd0 rng0 2 2 1 0 data5.enum).1 := by
  refine (((C4_removal svd0 rng0 2 2 1 0 data5.enum (List.nodup_enum_map_fst data5)
      (by simp [data5])).2 (((0, 0, 0), (1, 0, 0)), [(0, (0, 0, 0)), (1, (1, 0, 0))])
      (by rw [step5_eval])).2.1 _).mpr ⟨?_, ?_⟩
  · rw [List.mk_mem_enum_iff_getElem?]
    simp [data5]
  · rw [stepInl5_eval]
    simp

/-! ### Claim C5 -/

theorem smulP_smulP (a b : ℚ) (v : Pt) : smulP a (smulP b v) = smulP (a * b) v := by
  obtain ⟨x, y, z⟩ := v
  simp [smulP, mul_assoc]

theorem smulP_one (v : Pt) : smulP 1 v = v := by
  obtain ⟨x, y, z⟩ := v
  simp [smulP]


/-- C5: on a non-empty input whose SVD collaborator meets the dominant
singular vector contract, the Segment Fitter returns as anchor exactly the
arithmetic mean of the points (`n · anchor` is the componentwise sum), and
as direction the dominant right singular vector of the centered coordinate
matrix — a unit vector that minimizes the total squared orthogonal distance
of the centered points over all unit directions (the least-squares
orthogonal-distance best-fit line direction). -/
theorem C5_fit (svd : List Pt → Pt) (ps : List Pt) (hne : ps ≠ [])
    (hd : IsDominantUnitDir (centeredPts ps) (svd (centeredPts ps))) :
    (fit_line_segment svd ps).1 = centroid ps
    ∧ smulP (ps.length : ℚ) (fit_line_segment svd ps).1 = sumPts ps
    ∧ (fit_line_segment svd ps).2 = svd (centeredPts ps)
    ∧ normSq (fit_line_segment svd ps).2 = 1
    ∧ ∀ u : Pt, normSq u = 1 →
        ((centeredPts ps).map (fun c => normSq (crossP c (fit_line_segment svd ps).2))).sum
          ≤ ((centeredPts ps).map (fun c => normSq (crossP c u))).sum := by
  have hn : (ps.length : ℚ) ≠ 0 := by
    have h0 : ps.length ≠ 0 := by
      intro h0
      exact hne (List.length_eq_zero.1 h0)
    exact_mod_cast h0
  refine ⟨rfl, ?_, rfl, hd.1, ?_⟩
  · show smulP (ps.length : ℚ) (smulP (1 / (ps.length : ℚ)) (sumPts ps)) = sumPts ps
    rw [smulP_smulP, show (ps.length : ℚ) * (1 / (ps.length : ℚ)) = 1 from by field_simp]
    exact smulP_one _
  · intro u hu
    have h22 : (fit_line_segment svd ps).2 = svd (centeredPts ps) := rfl
    rw [h22, sum_crossSq _ _ hd.1, sum_crossSq _ _ hu]
    have h := hd.2 u hu
    linarith

/-- C5 witness: on the two collinear points `(0,0,0), (2,0,0)` the constant
collaborator `svd0` returns the genuine dominant unit direction `(1,0,0)`,
and the fitted direction is unit length. -/
theorem C5_witness : normSq (fit_line_segment svd0 ps2).2 = 1 := by
  refine (C5_fit svd0 ps2 (by simp [ps2]) ?_).2.2.2.1
  have hc : centeredPts ps2 = [(-1, 0, 0), (1, 0, 0)] := by
    norm_num [centeredPts, centroid, sumPts, ptAdd, ptSub, smulP, ps2, pzero]
  rw [hc]
  constructor
  · norm_num [svd0, normSq]
  · intro u hu
    obtain ⟨a, b, c⟩ := u
    simp only [svd0, dotP, normSq, List.map_cons, List.map_nil, List.sum_cons,
      List.sum_nil] at hu ⊢
    nlinarith [sq_nonneg b, sq_nonneg c]

/-! ### Claim C6 -/

theorem ptSub_self (a : Pt) : ptSub a a = pzero := by
  obtain ⟨x, y, z⟩ := a
  simp [ptSub, pzero]

/-- C6: both threshold comparisons are strict.  A pool position is in the
local neighborhood iff its point's Euclidean distance (the real square root
of `normSq`) to the seed is strictly below `neighborhood_radius`; a
neighborhood position is an inlier iff the norm of the cross product of its
offset from the anchor with the direction is strictly below
`inlier_threshold`; every rejected neighborhood position has orthogonal
distance at least `inlier_threshold`; and with a positive radius the seed
index itself is in its own neighborhood (distance `0`). -/
theorem C6_strict_thresholds (pool : List IPt) (seed mean dir : Pt) (r thr : ℚ)
    (lIdx : List Nat) (i : Nat) (rng : Nat → Nat) (k : Nat) :
    (i ∈ localIdxs pool seed r ↔ i < pool.length
        ∧ Real.sqrt ((normSq (ptSub (pool.getD i (0, pzero)).2 seed) : ℚ) : ℝ) < (r : ℝ))
    ∧ (i ∈ inlierIdxs pool lIdx mean dir thr ↔ i ∈ lIdx
        ∧ Real.sqrt ((normSq (crossP (ptSub (pool.getD i (0, pzero)).2 mean) dir) : ℚ) : ℝ)
            < (thr : ℝ))
    ∧ (i ∈ lIdx → i ∉ inlierIdxs pool lIdx mean dir thr →
        (thr : ℝ) ≤ Real.sqrt
          ((normSq (crossP (ptSub (pool.getD i (0, pzero)).2 mean) dir) : ℚ) : ℝ))
    ∧ (0 < r → 0 < pool.length →
        stepSeedIdx rng k pool.length ∈ stepLocal rng r k pool) := by
  refine ⟨?_, ?_, ?_, ?_⟩
  · rw [mem_localIdxs, ltNorm_iff_sqrt]
  · rw [mem_inlierIdxs, ltNorm_iff_sqrt]
  · intro hin hnot
    by_contra hlt
    push_neg at hlt
    exact hnot (mem_inlierIdxs.2 ⟨hin, (ltNorm_iff_sqrt _ _).2 hlt⟩)
  · intro hr hp
    show stepSeedIdx rng k pool.length ∈ localIdxs pool (stepSeed rng k pool) r
    refine mem_localIdxs.2 ⟨Nat.mod_lt _ hp, ?_⟩
    rw [stepSeed, ptSub_self]
    unfold ltNorm
    simp only [Bool.and_eq_true, decide_eq_true_eq]
    have h0 : normSq pzero = 0 := by norm_num [normSq, pzero]
    exact ⟨hr.le, by rw [h0]; positivity⟩

/-- C6 witness: in the two-cluster fixture, pool position `1` is in the
neighborhood of seed `(0,0,0)` with radius `2`, so its Euclidean distance to
the seed is strictly below `2`. -/
theorem C6_witness :
    Real.sqrt ((normSq (ptSub ((data5.enum).getD 1 (0, pzero)).2
        ((0 : ℚ), (0 : ℚ), (0 : ℚ))) : ℚ) : ℝ) < ((2 : ℚ) : ℝ) := by
  refine ((C6_strict_thresholds data5.enum ((0 : ℚ), (0 : ℚ), (0 : ℚ)) pzero pzero 2 1
    [] 1 rng0 0).1.mp ?_).2
  norm_num [localIdxs, data5, ltNorm, normSq, ptSub, pzero,
    List.filter, List.getD, List.range_succ]

/-! ### Claim C8 -/

/-- C8: on any input in which no two distinct positions lie within
`neighborhood_radius` of each other, and `min_samples ≥ 2`, the extractor
emits zero segments and records no inlier sets (every neighborhood is at
most the seed itself, so seeds are discarded one at a time); and whenever
the input is small enough for the `5000`-iteration budget, the pool drains
to at most `min_samples` remaining points. -/
theorem C8_scattered (svd : List Pt → Pt) (rng : Nat → Nat) (data : List Pt) (r : ℚ)
    (ms : Nat) (thr : ℚ) (hsep : Separated data r) (hms : 2 ≤ ms) :
    run_local_ransac svd rng data r ms thr = []
    ∧ (run_full svd rng data r ms thr).inls = []
    ∧ (data.length ≤ ms + max_iterations →
        (run_full svd rng data r ms thr).pool.length ≤ ms) := by
  obtain ⟨h1, h2, h3⟩ := separated_loop data r hsep svd rng ms thr hms max_iterations
    (initState data) (List.Sublist.refl _)
  refine ⟨?_, ?_, ?_⟩
  · rw [run_local_ransac]
    simpa [initState] using h1
  · simpa [initState] using h2
  · intro hn
    refine h3 ?_
    have hl : (initState data).pool.length = data.length := by
      simp [initState]
    omega

/-- C8 witness: four pairwise-distant points with radius `1` and
`min_samples = 2` yield zero segments. -/
theorem C8_witness : run_local_ransac svd0 rng0 dataSep 1 2 (1/10) = [] := by
  refine (C8_scattered svd0 rng0 dataSep 1 2 (1/10) ?_ (by norm_num)).1
  intro i j hi hj hij
  simp only [dataSep, List.length_cons, List.length_nil] at hi hj
  interval_cases i <;> interval_cases j <;>
    first
      | omega
      | norm_num [dataSep, ltNorm, normSq, ptSub, pzero, List.getD]

end AnalyzeLines
